import Mathlib

/-!
Verification of the kleenexp semantic compiler (src/re2/compiler.py).

The compiler walks a parsed AST, resolves macros against an environment,
applies operators, validates ranges and emits an intermediate assembly
representation (IR).  The Python code mutates a macro dictionary in place;
here the environment is threaded explicitly as an association list, and
the recursion carries a fuel parameter so that every definition is
executable and every concrete run can be settled by kernel reduction.
Running out of fuel is `none`; a genuine outcome of the program is
`some (Except.ok _)` or `some (Except.error _)`.
-/

namespace Kleenexp

/-- One entry of an IR character class.  The Python code stores either a
string fragment (a one-character string from an absorbed literal, or a
builtin class code such as a backslash-d) or a `(start, end)` pair from a
compiled `Range`. -/
inductive ClassItem
  | str (s : String)
  | rng (lo hi : Char)
deriving Repr, DecidableEq

/-- IR nodes (assembly representation).  Modelled from the spec: asm.py is
not under src/; the node kinds follow the data model of the spec together
with the behaviour pinned down by tests/test_asm.py.  `boundary` covers the
anchor macros and the any-character wildcard: fixed regex fragments,
anchors carrying a precomputed inverse where the spec derives a not-variant. -/
inductive Asm
  | literal (s : String)
  | concat (items : List Asm)
  | either (items : List Asm)
  | multiple (lo hi : Option Nat) (greedy : Bool) (sub : Asm)
  | characterClass (characters : List ClassItem) (inverted : Bool)
  | capture (cname : Option String) (sub : Asm)
  | setting (flags : String) (sub : Asm)
  | boundary (text : String) (inverse : Option String)
deriving Repr

/-- AST nodes, the input contract of the compiler (produced by the external
front-end, which is out of scope). -/
inductive Ast
  | literal (s : String)
  | concat (items : List Ast)
  | either (items : List Ast)
  | defNode (dname : String) (subregex : Ast)
  | operator (oname : String) (subregex : Ast)
  | macroRef (mname : String)
  | range (rstart rstop : Char)
  | nothing
deriving Repr

/-- The error kinds the Python compiler can raise: `CompileError` from
re2.errors, plus the built-in `KeyError`, `ValueError` and `AssertionError`
that escape from compiler.py itself. -/
inductive Err
  | compileError (msg : String)
  | keyError (msg : String)
  | valueError (msg : String)
  | assertionError (msg : String)
deriving Repr, DecidableEq

/-- Computation result: `none` models running out of fuel, otherwise the
program's own outcome. -/
abbrev M (α : Type) := Option (Except Err α)

def oret {α : Type} (a : α) : M α := some (.ok a)

def oerr {α : Type} (e : Err) : M α := some (.error e)

def obind {α β : Type} : M α → (α → M β) → M β
  | none, _ => none
  | some (.error e), _ => some (.error e)
  | some (.ok a), f => f a

/-- The macro environment: Python's `macros` dict.  All insertions in the
source are to fresh keys, so an association list with cons as insert and
first-occurrence erase as delete is observationally the dict. -/
abbrev Env := List (String × Asm)

def erase_key (n : String) (ρ : Env) : Env := ρ.eraseP (fun p => p.1 == n)

def EMPTY : Asm := .literal ""

def EMPTY_CONCAT : Asm := .concat []

/-- compiler.py `is_not_empty`: the node differs from the empty literal and
the empty concat. -/
def is_not_empty : Asm → Bool
  | .literal s => s != ""
  | .concat items => !items.isEmpty
  | _ => true

/-- compiler.py `is_single_char`. -/
def is_single_char : Asm → Bool
  | .literal s => s.length == 1
  | .characterClass _ _ => true
  | _ => false

/-- The loop body of `compile_either`: collect the one-character literal
strings and the characters of absorbed classes, in branch order. -/
def collect_class_chars : List Asm → List ClassItem
  | [] => []
  | .literal s :: rest =>
      if s.length == 1 then .str s :: collect_class_chars rest
      else collect_class_chars rest
  | .characterClass cs _ :: rest => cs ++ collect_class_chars rest
  | _ :: rest => collect_class_chars rest

/-- compiler.py `character_category`; `none` is the `assert False` branch. -/
def character_category (c : Char) : Option String :=
  if c.isLower then some "LOWERCASE"
  else if c.isUpper then some "UPPERCASE"
  else if c.isDigit then some "DIGIT"
  else none

def digits_to_nat (l : List Char) : Nat :=
  l.foldl (fun a c => 10 * a + (c.toNat - 48)) 0

/-- Matching semantics of `REPEAT_OPERATOR = re.compile('(\d+)-(\d+)|(\d+)+')`
applied with `.match` (anchored at the start, not at the end).  The first
alternative matches exactly when the maximal leading digit run is followed
by a hyphen and at least one further digit (a digit run can only be
followed by a hyphen at its maximal extent, so no backtracking case is
lost); the second alternative — in which the trailing `+` of the source
pattern is a quantifier on the group, not a literal plus — matches exactly
when the name starts with a digit, and its group is the maximal leading
digit run.  The result carries the captured bounds: `(min, some max)` from
the first alternative, `(min, none)` from the second. -/
def repeat_operator_match (name : String) : Option (Nat × Option Nat) :=
  let cs := name.data
  let d1 := cs.takeWhile Char.isDigit
  let rest := cs.dropWhile Char.isDigit
  if d1.isEmpty then none
  else
    match rest with
    | '-' :: rest2 =>
        let d2 := rest2.takeWhile Char.isDigit
        if d2.isEmpty then some (digits_to_nat d1, none)
        else some (digits_to_nat d1, some (digits_to_nat d2))
    | _ => some (digits_to_nat d1, none)

/-- Modelled from the spec: the inversion hook of asm.py (absent from
src/).  A `CharacterClass` flips its `inverted` flag; anchor fragments
carry a precomputed inverse; every other IR value defines no inversion
(Python: `AttributeError`). -/
def Asm.invert : Asm → Option Asm
  | .characterClass cs inv => some (.characterClass cs (!inv))
  | .boundary t (some i) => some (.boundary i (some t))
  | _ => none

/-- Modelled from the spec: literal escaping of the assembler (asm.py is
absent from src/).  Python 2 `re.escape` escapes every character that is
not alphanumeric or an underscore, as witnessed by tests/test_asm.py. -/
def escape_literal_char (c : Char) : String :=
  if c.isAlphanum || c == '_' then String.singleton c
  else "\\" ++ String.singleton c

def escape_literal (s : String) : String :=
  String.join (s.data.map escape_literal_char)

/-- Modelled from the spec: rendering of one class entry; ranges become
lo-hi pairs and single class-special characters are escaped. -/
def class_item_render : ClassItem → String
  | .str s =>
      if s.length == 1 && (s == "]" || s == "[" || s == "\\" || s == "^" || s == "-")
      then "\\" ++ s else s
  | .rng a b => String.singleton a ++ "-" ++ String.singleton b

/-- Modelled from the spec: the quantifier text of `Multiple`; a `none`
minimum means 0. -/
def quantifier_text (lo hi : Option Nat) : String :=
  let n := lo.getD 0
  match hi with
  | none =>
      if n == 0 then "*"
      else if n == 1 then "+"
      else "\x7b" ++ toString n ++ ",\x7d"
  | some m =>
      if n == 0 && m == 1 then "?"
      else if n == m then "\x7b" ++ toString n ++ "\x7d"
      else if n == 0 then "\x7b," ++ toString m ++ "\x7d"
      else "\x7b" ++ toString n ++ "," ++ toString m ++ "\x7d"

/-- Modelled from the spec: which IR nodes count as already-atomic under a
quantifier (a character class or an already-grouped capturing construct). -/
def grouped_atomic : Asm → Bool
  | .characterClass _ _ => true
  | .capture _ _ => true
  | _ => false

/-- Modelled from the spec: the assembler `assemble(ir) -> string`
(asm.py is absent from src/), rendering IR to regex text: literals are
escaped, an `Either` inside a `Concat` is wrapped in a non-capturing
group, a quantified subexpression that renders to more than one character
and is not atomic is wrapped in a non-capturing group, a single
non-inverted class entry renders bare, and captures, settings and anchors
render their fixed syntax.  Fuel-indexed like the compiler. -/
def assemble_fuel : Nat → Asm → Option String
  | 0, _ => none
  | fuel+1, ast =>
    match ast with
    | .literal s => some (escape_literal s)
    | .concat items =>
        (items.mapM (fun a =>
          (assemble_fuel fuel a).map (fun r =>
            match a with
            | .either _ => "(?:" ++ r ++ ")"
            | _ => r))).map String.join
    | .either items =>
        (items.mapM (assemble_fuel fuel)).map (fun rs =>
          String.intercalate "|" rs)
    | .multiple lo hi greedy sub =>
        (assemble_fuel fuel sub).map (fun r =>
          let body := if r.length > 1 && !grouped_atomic sub then "(?:" ++ r ++ ")" else r
          body ++ quantifier_text lo hi ++ (if greedy then "" else "?"))
    | .characterClass cs inv =>
        match cs, inv with
        | [.str s], false => some s
        | _, _ =>
            some ("[" ++ (if inv then "^" else "") ++
              String.join (cs.map class_item_render) ++ "]")
    | .capture none sub => (assemble_fuel fuel sub).map (fun r => "(" ++ r ++ ")")
    | .capture (some n) sub =>
        (assemble_fuel fuel sub).map (fun r => "(?P<" ++ n ++ ">" ++ r ++ ")")
    | .setting flags sub => (assemble_fuel fuel sub).map (fun r => "(?" ++ flags ++ ")" ++ r)
    | .boundary t _ => some t

/-- compiler.py `invert_operator`, fallback branch: `expr.invert()`, with
`AttributeError` turned into a `CompileError` naming the re-rendered
expression. -/
def invert_fallback (fuel : Nat) (expr : Asm) : M Asm :=
  match Asm.invert expr with
  | some v => oret v
  | none =>
      match assemble_fuel fuel expr with
      | some r => oerr (.compileError ("Expression " ++ r ++ " cannot be inverted"))
      | none => none

/-- compiler.py `invert_operator`: a one-character literal becomes a
one-character inverted class; anything else falls back to the IR value's
own inversion. -/
def invert_operator (fuel : Nat) (expr : Asm) : M Asm :=
  match expr with
  | .literal s =>
      if s.length == 1 then oret (.characterClass [.str s] true)
      else invert_fallback fuel expr
  | _ => invert_fallback fuel expr

/-- Environment-threading compilation of every item of a list in order
(the branches of an `Either`). -/
def thread_list (g : Ast → Env → M (Asm × Env)) : List Ast → Env → M (List Asm × Env)
  | [], ρ => oret ([], ρ)
  | a :: rest, ρ =>
      obind (g a ρ) (fun p =>
      obind (thread_list g rest p.2) (fun q =>
      oret (p.1 :: q.1, q.2)))

/-- The first loop of `compile_concat`: walk the items, bind each `Def`
(compile its body under the current environment, after checking the name
is not already bound), skip the rest.  Walking the full list and skipping
non-defs is the same operation sequence as Python's iteration over the
`Def`-filtered list. -/
def bind_defs_go (g : Ast → Env → M (Asm × Env)) : List Ast → Env → M Env
  | [], ρ => oret ρ
  | .defNode n b :: rest, ρ =>
      if (List.lookup n ρ).isSome then
        oerr (.keyError ("Macro " ++ n ++ " already defined"))
      else
        obind (g b ρ) (fun p => bind_defs_go g rest ((n, p.1) :: p.2))
  | _ :: rest, ρ => bind_defs_go g rest ρ

/-- The second loop of `compile_concat`: compile the non-`Def` items in
original order under the extended environment. -/
def compile_items_go (g : Ast → Env → M (Asm × Env)) : List Ast → Env → M (List Asm × Env)
  | [], ρ => oret ([], ρ)
  | .defNode _ _ :: rest, ρ => compile_items_go g rest ρ
  | a :: rest, ρ =>
      obind (g a ρ) (fun p =>
      obind (compile_items_go g rest p.2) (fun q =>
      oret (p.1 :: q.1, q.2)))

/-- The closing loop of `compile_concat`: delete every name bound by this
concat's `Def`s from the environment. -/
def erase_defs : List Ast → Env → Env
  | [], ρ => ρ
  | .defNode n _ :: rest, ρ => erase_defs rest (erase_key n ρ)
  | _ :: rest, ρ => erase_defs rest ρ

/-- compiler.py `compile_ast` together with the per-node converters
(`compile_concat`, `compile_either`, `def_error`, `compile_operator`,
`compile_macro`, `compile_range` and the literal and nothing lambdas),
as one fuel-indexed recursive function over the AST with the macro
dictionary threaded through. -/
def compile_ast : Nat → Ast → Env → M (Asm × Env)
  | 0, _, _ => none
  | fuel+1, ast, ρ =>
    match ast with
    | .literal s => oret (.literal s, ρ)
    | .nothing => oret (EMPTY, ρ)
    | .macroRef n =>
        match List.lookup n ρ with
        | some v => oret (v, ρ)
        | none =>
            oerr (.compileError
              ("Macro " ++ n ++ " does not exist, perhaps you defined it in the wrong scope?"))
    | .defNode _ _ =>
        oerr (.valueError "temporarily, macro definition is only allowed directly under Concat([])")
    | .range a b =>
        match character_category a with
        | none => oerr (.assertionError ("Unknown character class: " ++ String.singleton a))
        | some ca =>
            match character_category b with
            | none => oerr (.assertionError ("Unknown character class: " ++ String.singleton b))
            | some cb =>
                if ca != cb then
                  oerr (.compileError
                    ("Range start and end not of the same category: \x27" ++ String.singleton a ++
                     "\x27 is a " ++ ca ++ " but \x27" ++ String.singleton b ++ "\x27 is a " ++ cb))
                else if b ≤ a then
                  oerr (.compileError
                    ("Range start not before range end: \x27" ++ String.singleton a ++
                     "\x27 >= \x27" ++ String.singleton b ++ "\x27"))
                else oret (.characterClass [.rng a b] false, ρ)
    | .operator name sub =>
        obind (compile_ast fuel sub ρ) (fun p =>
          match repeat_operator_match name with
          | some bounds => oret (.multiple (some bounds.1) bounds.2 true p.1, p.2)
          | none =>
              if name == "capture" then oret (.capture none p.1, p.2)
              else if name == "not" then
                obind (invert_operator fuel p.1) (fun v => oret (v, p.2))
              else oerr (.compileError ("Operator " ++ name ++ " does not exist")))
    | .either items =>
        obind (thread_list (compile_ast fuel) items ρ) (fun p =>
          if p.1.all is_single_char then
            oret (.characterClass (collect_class_chars p.1) false, p.2)
          else oret (.either p.1, p.2))
    | .concat items =>
        obind (bind_defs_go (compile_ast fuel) items ρ) (fun ρ1 =>
        obind (compile_items_go (compile_ast fuel) items ρ1) (fun p =>
          let kept := p.1.filter is_not_empty
          let ρ3 := erase_defs items p.2
          match kept with
          | [] => oret (EMPTY, ρ3)
          | [x] => oret (x, ρ3)
          | xs => oret (.concat xs, ρ3)))

/-! ### The builtin macro library (compiler.py lines 12-64 and 180-189) -/

/-- Modelled from the spec: the builtin IR fragments of asm.py (absent
from src/).  Character-category macros are character classes (so their
not-variants flip the flag), anchors are fixed fragments with a
precomputed inverse where one exists, in line with tests/test_asm.py
(DIGIT renders as a backslash-d class code). -/
def ANY : Asm := .boundary "." none

def LINEFEED : Asm := .characterClass [.str "\\n"] false

def CARRIAGE_RETURN : Asm := .characterClass [.str "\\r"] false

def TAB : Asm := .characterClass [.str "\\t"] false

def DIGIT : Asm := .characterClass [.str "\\d"] false

def LETTER : Asm := .characterClass [.rng 'a' 'z', .rng 'A' 'Z'] false

def LOWERCASE : Asm := .characterClass [.rng 'a' 'z'] false

def UPPERCASE : Asm := .characterClass [.rng 'A' 'Z'] false

def SPACE : Asm := .characterClass [.str "\\s"] false

def TOKEN_CHARACTER : Asm := .characterClass [.str "\\w"] false

def START_STRING : Asm := .boundary "\\A" none

def END_STRING : Asm := .boundary "\\Z" none

def START_LINE : Asm := .boundary "^" none

def END_LINE : Asm := .boundary "$" none

def WORD_BOUNDARY : Asm := .boundary "\\b" (some "\\B")

/-- The literal entries of `builtin_macros` (compiler.py lines 12-34). -/
def builtin_macros_base : Env := [
  ("#any", ANY),
  ("#linefeed", LINEFEED),
  ("#carriage_return", CARRIAGE_RETURN),
  ("#windows_newline", .literal "\r\n"),
  ("#tab", TAB),
  ("#digit", DIGIT),
  ("#letter", LETTER),
  ("#lowercase", LOWERCASE),
  ("#uppercase", UPPERCASE),
  ("#space", SPACE),
  ("#token_character", TOKEN_CHARACTER),
  ("#start_string", START_STRING),
  ("#end_string", END_STRING),
  ("#start_line", START_LINE),
  ("#end_line", END_LINE),
  ("#word_boundary", WORD_BOUNDARY),
  ("#quote", .literal "\x27"),
  ("#double_quote", .literal "\""),
  ("#left_brace", .literal "["),
  ("#right_brace", .literal "]")]

def env_get (ρ : Env) (n : String) : Asm := (List.lookup n ρ).getD EMPTY

/-- The names whose not-variant is derived by inverting the base IR
(compiler.py lines 35-37). -/
def invertible_names : List String :=
  ["linefeed", "carriage_return", "tab", "digit", "letter", "lowercase",
   "uppercase", "space", "token_character", "word_boundary"]

def with_not_macros (ρ : Env) : Env :=
  invertible_names.foldl (fun acc n =>
    ("#not_" ++ n, ((env_get acc ("#" ++ n)).invert).getD EMPTY) :: acc) ρ

/-- Long-to-short alias pairs that also get a not-alias (lines 38-51). -/
def alias_pairs_not : List (String × String) :=
  [("linefeed", "lf"), ("carriage_return", "cr"), ("tab", "t"), ("digit", "d"),
   ("letter", "l"), ("lowercase", "lc"), ("uppercase", "uc"), ("space", "s"),
   ("token_character", "tc"), ("word_boundary", "wb")]

/-- Long-to-short alias pairs without a not-alias (lines 52-64). -/
def alias_pairs_plain : List (String × String) :=
  [("any", "a"), ("windows_newline", "crlf"), ("start_string", "ss"),
   ("end_string", "es"), ("start_line", "sl"), ("end_line", "el"),
   ("quote", "q"), ("double_quote", "dq"), ("left_brace", "lb"),
   ("right_brace", "rb")]

def with_aliases (ρ : Env) : Env :=
  let ρ1 := alias_pairs_not.foldl (fun acc p =>
    ("#n" ++ p.2, env_get acc ("#not_" ++ p.1)) ::
    ("#" ++ p.2, env_get acc ("#" ++ p.1)) :: acc) ρ
  alias_pairs_plain.foldl (fun acc p =>
    ("#" ++ p.2, env_get acc ("#" ++ p.1)) :: acc) ρ1

/-- Modelled from the spec: the parser is not under src/, so the source
text `"[[0-1 '-'] [1+ #digit]]"` of the self-hosted `#integer` macro is
transcribed to the AST the front-end contract yields for it. -/
def integer_ast : Ast :=
  .concat [.operator "0-1" (.literal "-"), .operator "1+" (.macroRef "#digit")]

/-- Modelled from the spec: transcription of `"[1+ #digit]"`. -/
def unsigned_integer_ast : Ast := .concat [.operator "1+" (.macroRef "#digit")]

/-- Modelled from the spec: transcription of `"[#int [0-1 '.' #uint]]"`. -/
def real_ast : Ast :=
  .concat [.macroRef "#int",
           .operator "0-1" (.concat [.literal ".", .macroRef "#uint"])]

/-- Modelled from the spec: transcription of the trailing definition
`#exponent=[['e' | 'E'] [0-1 ['+' | '-']] #uint]` of the `#float` source. -/
def exponent_body_ast : Ast :=
  .concat [.either [.literal "e", .literal "E"],
           .operator "0-1" (.either [.literal "+", .literal "-"]),
           .macroRef "#uint"]

/-- Modelled from the spec: transcription of the `#float` definition
source, in which `#exponent` is referenced before the trailing `Def` that
introduces it. -/
def float_ast : Ast :=
  .concat [
    .operator "0-1" (.literal "-"),
    .either [
      .concat [
        .either [
          .concat [.macroRef "#uint", .literal ".", .operator "0-1" (.macroRef "#uint")],
          .concat [.literal ".", .macroRef "#uint"]],
        .operator "0-1" (.macroRef "#exponent")],
      .concat [.macroRef "#int", .macroRef "#exponent"]],
    .defNode "#exponent" exponent_body_ast]

/-- Fuel amply covering the recursion depth of the self-hosted builtin
definitions. -/
def builtin_fuel : Nat := 100

/-- compiler.py `add_builtin_macro`: compile a self-hosted definition
against the table as built so far and register it under its long (and
optionally short) name. -/
def add_builtin_macro (ρ : Env) (long : String) (short : Option String) (ast : Ast) : Env :=
  match compile_ast builtin_fuel ast ρ with
  | some (.ok p) =>
      match short with
      | some s => (s, p.1) :: (long, p.1) :: ρ
      | none => (long, p.1) :: ρ
  | _ => ρ

/-- The process-wide builtin macro table, fully populated (lines 12-64
and 186-189). -/
def builtin_macros : Env :=
  let ρ0 := with_aliases (with_not_macros builtin_macros_base)
  let ρ1 := add_builtin_macro ρ0 "#integer" (some "#int") integer_ast
  let ρ2 := add_builtin_macro ρ1 "#unsigned_integer" (some "#uint") unsigned_integer_ast
  let ρ3 := add_builtin_macro ρ2 "#real" none real_ast
  add_builtin_macro ρ3 "#float" none float_ast

/-- compiler.py `compile`: compile the AST against (a copy of) the builtin
table and wrap the result in a `Setting` with the multiline and
dot-matches-newline flags. -/
def compile (fuel : Nat) (ast : Ast) : Option (Except Err Asm) :=
  obind (compile_ast fuel ast builtin_macros) (fun p => oret (.setting "ms" p.1))

/-- The names introduced by the `Def` items of a concat's item list, in
item order. -/
def def_names : List Ast → List String
  | [] => []
  | .defNode n _ :: rest => n :: def_names rest
  | _ :: rest => def_names rest

/-- A compilation step that, whenever it succeeds, hands back the macro
environment it was given. -/
def env_preserving (g : Ast → Env → M (Asm × Env)) : Prop :=
  ∀ a ρ r ρ', g a ρ = oret (r, ρ') → ρ' = ρ

/-- The shapes an error escaping the compiler can take: a `CompileError`,
the redefinition `KeyError`, the misplaced-`Def` `ValueError`, or the
unknown-character-category `AssertionError`. -/
def err_shape (e : Err) : Prop :=
  (∃ msg, e = .compileError msg) ∨
  (∃ n, e = .keyError ("Macro " ++ n ++ " already defined")) ∨
  (e = .valueError "temporarily, macro definition is only allowed directly under Concat([])") ∨
  (∃ c : Char, e = .assertionError ("Unknown character class: " ++ String.singleton c))

/-! ### Inversion lemmas for the result monad -/

theorem obind_ok {α β : Type} {x : M α} {f : α → M β} {b : β}
    (h : obind x f = oret b) : ∃ a, x = oret a ∧ f a = oret b := by
  match x with
  | none => simp [obind, oret] at h
  | some (.error e) => simp [obind, oret] at h
  | some (.ok a) => exact ⟨a, rfl, h⟩

theorem obind_error {α β : Type} {x : M α} {f : α → M β} {e : Err}
    (h : obind x f = oerr e) : x = oerr e ∨ ∃ a, x = oret a ∧ f a = oerr e := by
  match x with
  | none => simp [obind, oerr] at h
  | some (.error e') =>
      simp [obind, oerr] at h
      subst h; exact .inl rfl
  | some (.ok a) => exact .inr ⟨a, rfl, h⟩

theorem oret_inj {α : Type} {a b : α} (h : oret a = oret b) : a = b := by
  simpa [oret] using h

/-! ### The environment frame property -/

theorem erase_key_cons (n : String) (p : String × Asm) (ρ : Env) :
    erase_key n (p :: ρ) = if p.1 == n then ρ else p :: erase_key n ρ := by
  simp only [erase_key, List.eraseP_cons]
  cases h : p.1 == n <;> simp [h]

theorem erase_key_comm (a b : String) (hab : a ≠ b) :
    ∀ σ : Env, erase_key a (erase_key b σ) = erase_key b (erase_key a σ) := by
  intro σ
  induction σ with
  | nil => rfl
  | cons p σ' ih =>
      by_cases hpb : p.1 = b <;> by_cases hpa : p.1 = a
      · exact absurd (hpb.symm.trans hpa).symm hab
      · simp [erase_key_cons, hpa, hpb, ih, hab, Ne.symm hab]
      · simp [erase_key_cons, hpa, hpb, ih, hab, Ne.symm hab]
      · simp [erase_key_cons, hpa, hpb, ih, hab, Ne.symm hab]

theorem thread_list_env {g : Ast → Env → M (Asm × Env)} (hg : env_preserving g) :
    ∀ (l : List Ast) (ρ : Env) (vs : List Asm) (ρ' : Env),
      thread_list g l ρ = oret (vs, ρ') → ρ' = ρ := by
  intro l
  induction l with
  | nil =>
      intro ρ vs ρ' h
      have h2 := oret_inj h
      injection h2 with _ h3
      exact h3.symm
  | cons a rest ih =>
      intro ρ vs ρ' h
      simp only [thread_list] at h
      obtain ⟨p, hp, h2⟩ := obind_ok h
      obtain ⟨q, hq, h3⟩ := obind_ok h2
      have e1 : p.2 = ρ := hg a ρ p.1 p.2 hp
      have e2 : q.2 = p.2 := ih p.2 q.1 q.2 hq
      have h4 := oret_inj h3
      injection h4 with _ h5
      rw [← h5, e2, e1]

theorem compile_items_go_env {g : Ast → Env → M (Asm × Env)} (hg : env_preserving g) :
    ∀ (l : List Ast) (ρ : Env) (vs : List Asm) (ρ' : Env),
      compile_items_go g l ρ = oret (vs, ρ') → ρ' = ρ := by
  intro l
  induction l with
  | nil =>
      intro ρ vs ρ' h
      have h2 := oret_inj h
      injection h2 with _ h3
      exact h3.symm
  | cons a rest ih =>
      intro ρ vs ρ' h
      cases a
      case defNode n b => exact ih ρ vs ρ' (by simpa only [compile_items_go] using h)
      all_goals {
        simp only [compile_items_go] at h
        obtain ⟨p, hp, h2⟩ := obind_ok h
        obtain ⟨q, hq, h3⟩ := obind_ok h2
        have e1 : p.2 = ρ := hg _ ρ p.1 p.2 hp
        have e2 : q.2 = p.2 := ih p.2 q.1 q.2 hq
        have h4 := oret_inj h3
        injection h4 with _ h5
        rw [← h5, e2, e1] }

theorem bind_defs_go_fresh {g : Ast → Env → M (Asm × Env)} (hg : env_preserving g) :
    ∀ (l : List Ast) (ρ ρ' : Env), bind_defs_go g l ρ = oret ρ' →
      ∀ m, (List.lookup m ρ).isSome → m ∉ def_names l := by
  intro l
  induction l with
  | nil => intro ρ ρ' _ m _; simp [def_names]
  | cons a rest ih =>
      intro ρ ρ' h m hm
      cases a
      case defNode n b =>
        simp only [bind_defs_go] at h
        by_cases hc : (List.lookup n ρ).isSome
        · rw [if_pos hc] at h
          simp [oerr, oret] at h
        · rw [if_neg hc] at h
          obtain ⟨p, hp, h2⟩ := obind_ok h
          have hpe : p.2 = ρ := hg b ρ p.1 p.2 hp
          rw [hpe] at h2
          simp only [def_names, List.mem_cons, not_or]
          refine ⟨fun hmn => hc (hmn ▸ hm), ?_⟩
          have hm2 : (List.lookup m ((n, p.1) :: ρ)).isSome := by
            rw [List.lookup_cons]
            by_cases hmn : m == n
            · simp [hmn]
            · simp only [hmn]
              exact hm
          exact ih ((n, p.1) :: ρ) ρ' h2 m hm2
      all_goals {
        simp only [bind_defs_go] at h
        simp only [def_names]
        exact ih ρ ρ' h m hm }

theorem erase_defs_comm (m : String) :
    ∀ (l : List Ast) (σ : Env), m ∉ def_names l →
      erase_defs l (erase_key m σ) = erase_key m (erase_defs l σ) := by
  intro l
  induction l with
  | nil => intro σ _; rfl
  | cons a rest ih =>
      intro σ hm
      cases a
      case defNode n b =>
        simp only [def_names, List.mem_cons, not_or] at hm
        simp only [erase_defs]
        rw [erase_key_comm n m (fun h => hm.1 h.symm) σ]
        exact ih (erase_key n σ) hm.2
      all_goals {
        simp only [def_names] at hm
        simp only [erase_defs]
        exact ih σ hm }

theorem bind_defs_go_erase {g : Ast → Env → M (Asm × Env)} (hg : env_preserving g) :
    ∀ (l : List Ast) (ρ ρ' : Env), bind_defs_go g l ρ = oret ρ' →
      erase_defs l ρ' = ρ := by
  intro l
  induction l with
  | nil =>
      intro ρ ρ' h
      have := oret_inj h
      simp [erase_defs, this.symm]
  | cons a rest ih =>
      intro ρ ρ' h
      cases a
      case defNode n b =>
        simp only [bind_defs_go] at h
        by_cases hc : (List.lookup n ρ).isSome
        · rw [if_pos hc] at h
          simp [oerr, oret] at h
        · rw [if_neg hc] at h
          obtain ⟨p, hp, h2⟩ := obind_ok h
          have hpe : p.2 = ρ := hg b ρ p.1 p.2 hp
          rw [hpe] at h2
          have hfresh : n ∉ def_names rest := by
            refine bind_defs_go_fresh hg rest ((n, p.1) :: ρ) ρ' h2 n ?_
            rw [List.lookup_cons]
            simp
          have ihh : erase_defs rest ρ' = (n, p.1) :: ρ := ih ((n, p.1) :: ρ) ρ' h2
          simp only [erase_defs]
          rw [erase_defs_comm n rest ρ' hfresh, ihh, erase_key_cons]
          simp
      all_goals {
        simp only [bind_defs_go] at h
        simp only [erase_defs]
        exact ih ρ ρ' h }

/-- The environment frame property of the compiler: a successful
compilation hands back exactly the macro environment it started from
(every name a `Concat`'s `Def`s introduced has been unbound again). -/
theorem compile_ast_env : ∀ fuel, env_preserving (compile_ast fuel) := by
  intro fuel
  induction fuel with
  | zero => intro a ρ r ρ' h; simp [compile_ast, oret] at h
  | succ f ih =>
      intro a ρ r ρ' h
      cases a
      case literal s =>
        simp only [compile_ast] at h
        have := oret_inj h
        injection this with _ h2
        exact h2.symm
      case nothing =>
        simp only [compile_ast] at h
        have := oret_inj h
        injection this with _ h2
        exact h2.symm
      case macroRef n =>
        simp only [compile_ast] at h
        cases hl : List.lookup n ρ with
        | some v =>
            rw [hl] at h
            have := oret_inj h
            injection this with _ h2
            exact h2.symm
        | none =>
            rw [hl] at h
            simp [oerr, oret] at h
      case defNode n b =>
        simp only [compile_ast] at h
        simp [oerr, oret] at h
      case range a b =>
        simp only [compile_ast] at h
        split at h
        · simp [oerr, oret] at h
        · split at h
          · simp [oerr, oret] at h
          · split at h
            · simp [oerr, oret] at h
            · split at h
              · simp [oerr, oret] at h
              · have := oret_inj h
                injection this with _ h2
                exact h2.symm
      case operator name sub =>
        simp only [compile_ast] at h
        obtain ⟨p, hp, h2⟩ := obind_ok h
        have hpe : p.2 = ρ := ih sub ρ p.1 p.2 hp
        split at h2
        · have := oret_inj h2
          injection this with _ h3
          rw [← h3, hpe]
        · split at h2
          · have := oret_inj h2
            injection this with _ h3
            rw [← h3, hpe]
          · split at h2
            · obtain ⟨v, _, h3⟩ := obind_ok h2
              have := oret_inj h3
              injection this with _ h4
              rw [← h4, hpe]
            · simp [oerr, oret] at h2
      case either items =>
        simp only [compile_ast] at h
        obtain ⟨p, hp, h2⟩ := obind_ok h
        have hpe : p.2 = ρ := thread_list_env ih items ρ p.1 p.2 hp
        split at h2 <;>
          { have := oret_inj h2
            injection this with _ h3
            rw [← h3, hpe] }
      case concat items =>
        simp only [compile_ast] at h
        obtain ⟨ρ1, hb, h2⟩ := obind_ok h
        obtain ⟨p, hi, h3⟩ := obind_ok h2
        have hpe : p.2 = ρ1 := compile_items_go_env ih items ρ1 p.1 p.2 hi
        have herase : erase_defs items ρ1 = ρ := bind_defs_go_erase ih items ρ ρ1 hb
        split at h3 <;>
          { have := oret_inj h3
            injection this with _ h4
            rw [← h4, hpe, herase] }

theorem obind_oret {α β : Type} (a : α) (f : α → M β) : obind (oret a) f = f a := rfl

theorem obind_oerr {α β : Type} (e : Err) (f : α → M β) : obind (oerr e) f = oerr e := rfl

theorem compile_ast_either_unfold (fuel : Nat) (items : List Ast) (ρ : Env) :
    compile_ast (fuel+1) (.either items) ρ =
      obind (thread_list (compile_ast fuel) items ρ) (fun p =>
        if p.1.all is_single_char then
          oret (.characterClass (collect_class_chars p.1) false, p.2)
        else oret (.either p.1, p.2)) := rfl

theorem compile_ast_concat_unfold (fuel : Nat) (items : List Ast) (ρ : Env) :
    compile_ast (fuel+1) (.concat items) ρ =
      obind (bind_defs_go (compile_ast fuel) items ρ) (fun ρ1 =>
      obind (compile_items_go (compile_ast fuel) items ρ1) (fun p =>
        match p.1.filter is_not_empty with
        | [] => oret (EMPTY, erase_defs items p.2)
        | [x] => oret (x, erase_defs items p.2)
        | xs => oret (.concat xs, erase_defs items p.2))) := rfl

/-! ### The claims -/

/-- C1: for every `Concat` containing `Def` items, a successful compilation of
the `Concat` restores the macro environment that existed before it exactly
(every name its `Def`s introduced is unbound again); consequently a `Macro`
reference to such a name placed after the enclosing `Concat` fails with the
scoping `CompileError`. -/
theorem c1_concat_def_scoping (fuel : Nat) (items : List Ast) (x : String) (body : Ast)
    (ρ : Env) (r : Asm) (ρ' : Env)
    (_hdef : Ast.defNode x body ∈ items)
    (hx : List.lookup x ρ = none)
    (h : compile_ast fuel (.concat items) ρ = oret (r, ρ')) :
    ρ' = ρ ∧
    compile_ast (fuel + 1) (.concat [.concat items, .macroRef x]) ρ =
      oerr (.compileError
        ("Macro " ++ x ++ " does not exist, perhaps you defined it in the wrong scope?")) := by
  have h1 : ρ' = ρ := compile_ast_env fuel _ ρ r ρ' h
  rw [h1] at h
  refine ⟨h1, ?_⟩
  cases fuel with
  | zero => simp [compile_ast, oret] at h
  | succ f =>
      rw [compile_ast_concat_unfold]
      simp only [bind_defs_go, obind_oret]
      simp only [compile_items_go]
      rw [h]
      simp only [obind_oret]
      have hm : compile_ast (f + 1) (.macroRef x) ρ =
          oerr (.compileError
            ("Macro " ++ x ++ " does not exist, perhaps you defined it in the wrong scope?")) := by
        simp only [compile_ast]
        rw [hx]
      rw [hm]
      rfl

theorem c1_witness :
    compile_ast 6 (.concat [.concat [.defNode "#x" (.literal "a"), .literal "b"],
        .macroRef "#x"]) [] =
      oerr (.compileError
        "Macro #x does not exist, perhaps you defined it in the wrong scope?") :=
  (c1_concat_def_scoping 5 [.defNode "#x" (.literal "a"), .literal "b"] "#x" (.literal "a")
    [] (.literal "b") [] (List.mem_cons_self _ _) rfl rfl).2

/-- C2: an `Either` compiles to a single non-inverted `CharacterClass` exactly
when every compiled branch is a one-character literal or a `CharacterClass`;
in that case the class's characters are the branch literal characters and the
characters of absorbed classes, in branch order, and otherwise the result is
an `Either` of the compiled branches verbatim. -/
theorem c2_either_folding (fuel : Nat) (items : List Ast) (ρ : Env) (r : Asm) (ρ' : Env)
    (h : compile_ast (fuel+1) (.either items) ρ = oret (r, ρ')) :
    ∃ compiled, thread_list (compile_ast fuel) items ρ = oret (compiled, ρ') ∧
      ((compiled.all is_single_char = true ∧
        r = .characterClass (collect_class_chars compiled) false) ∨
       (compiled.all is_single_char = false ∧ r = .either compiled)) ∧
      ((∃ cs, r = .characterClass cs false) ↔ compiled.all is_single_char = true) := by
  rw [compile_ast_either_unfold] at h
  obtain ⟨p, hp, h2⟩ := obind_ok h
  by_cases hall : p.1.all is_single_char
  · rw [if_pos hall] at h2
    have h3 := oret_inj h2
    injection h3 with h4 h5
    refine ⟨p.1, ?_, .inl ⟨hall, h4.symm⟩, ?_⟩
    · rw [← h5]; exact hp
    · exact ⟨fun _ => hall, fun _ => ⟨collect_class_chars p.1, h4.symm⟩⟩
  · rw [if_neg hall] at h2
    have h3 := oret_inj h2
    injection h3 with h4 h5
    refine ⟨p.1, ?_, .inr ⟨Bool.eq_false_iff.mpr hall, h4.symm⟩, ?_⟩
    · rw [← h5]; exact hp
    · constructor
      · intro hcs
        obtain ⟨cs, hcs⟩ := hcs
        rw [← h4] at hcs
        cases hcs
      · intro hc
        exact absurd hc hall

theorem c2_witness :
    ∃ compiled,
      thread_list (compile_ast 1) [.literal "a", .literal "b", .literal "c"] [] =
        oret (compiled, []) ∧
      ((compiled.all is_single_char = true ∧
        Asm.characterClass [.str "a", .str "b", .str "c"] false =
          .characterClass (collect_class_chars compiled) false) ∨
       (compiled.all is_single_char = false ∧
        Asm.characterClass [.str "a", .str "b", .str "c"] false = .either compiled)) ∧
      ((∃ cs, Asm.characterClass [.str "a", .str "b", .str "c"] false =
          .characterClass cs false) ↔ compiled.all is_single_char = true) :=
  c2_either_folding 1 [.literal "a", .literal "b", .literal "c"] []
    (.characterClass [.str "a", .str "b", .str "c"] false) [] rfl

/-- C3: the repetition-name pattern of `compile_operator` ends in an unescaped
quantifier `+`, so its second alternative already matches any operator name
that merely starts with a digit.  A bare digit name such as "3" (or a
malformed "2-") is therefore accepted as a repetition and compiled to a
greedy unbounded `Multiple` instead of reaching the builtin-operator lookup
and its unknown-operator `CompileError`. -/
theorem c3_bare_digits_operator :
    compile_ast 2 (.operator "3" (.literal "a")) [] =
      oret (.multiple (some 3) none true (.literal "a"), []) ∧
    compile_ast 2 (.operator "2-" (.literal "a")) [] =
      oret (.multiple (some 2) none true (.literal "a"), []) ∧
    repeat_operator_match "3" = some (3, none) :=
  ⟨rfl, rfl, rfl⟩

theorem invert_fallback_err (fuel : Nat) (expr : Asm) (e : Err)
    (h : invert_fallback fuel expr = oerr e) : ∃ msg, e = .compileError msg := by
  unfold invert_fallback at h
  split at h
  · simp [oret, oerr] at h
  · split at h
    · simp only [oerr, Option.some.injEq, Except.error.injEq] at h
      exact ⟨_, h.symm⟩
    · simp [oerr] at h

theorem invert_operator_err (fuel : Nat) (expr : Asm) (e : Err)
    (h : invert_operator fuel expr = oerr e) : ∃ msg, e = .compileError msg := by
  unfold invert_operator at h
  split at h
  · split at h
    · simp [oret, oerr] at h
    · exact invert_fallback_err fuel _ e h
  · exact invert_fallback_err fuel _ e h

theorem thread_list_err {g : Ast → Env → M (Asm × Env)}
    (hgerr : ∀ a ρ e, g a ρ = oerr e → err_shape e) :
    ∀ (l : List Ast) (ρ : Env) (e : Err), thread_list g l ρ = oerr e → err_shape e := by
  intro l
  induction l with
  | nil => intro ρ e h; simp [thread_list, oret, oerr] at h
  | cons a rest ih =>
      intro ρ e h
      simp only [thread_list] at h
      rcases obind_error h with h1 | ⟨p, _, h2⟩
      · exact hgerr a ρ e h1
      · rcases obind_error h2 with h3 | ⟨q, _, h4⟩
        · exact ih p.2 e h3
        · simp [oret, oerr] at h4

theorem compile_items_go_err {g : Ast → Env → M (Asm × Env)}
    (hgerr : ∀ a ρ e, g a ρ = oerr e → err_shape e) :
    ∀ (l : List Ast) (ρ : Env) (e : Err), compile_items_go g l ρ = oerr e → err_shape e := by
  intro l
  induction l with
  | nil => intro ρ e h; simp [compile_items_go, oret, oerr] at h
  | cons a rest ih =>
      intro ρ e h
      cases a
      case defNode n b => exact ih ρ e (by simpa only [compile_items_go] using h)
      all_goals {
        simp only [compile_items_go] at h
        rcases obind_error h with h1 | ⟨p, _, h2⟩
        · exact hgerr _ ρ e h1
        · rcases obind_error h2 with h3 | ⟨q, _, h4⟩
          · exact ih p.2 e h3
          · simp [oret, oerr] at h4 }

theorem bind_defs_go_err {g : Ast → Env → M (Asm × Env)}
    (hgerr : ∀ a ρ e, g a ρ = oerr e → err_shape e) :
    ∀ (l : List Ast) (ρ : Env) (e : Err), bind_defs_go g l ρ = oerr e → err_shape e := by
  intro l
  induction l with
  | nil => intro ρ e h; simp [bind_defs_go, oret, oerr] at h
  | cons a rest ih =>
      intro ρ e h
      cases a
      case defNode n b =>
        simp only [bind_defs_go] at h
        by_cases hc : (List.lookup n ρ).isSome
        · rw [if_pos hc] at h
          simp only [oerr, Option.some.injEq, Except.error.injEq] at h
          exact .inr (.inl ⟨n, h.symm⟩)
        · rw [if_neg hc] at h
          rcases obind_error h with h1 | ⟨p, _, h2⟩
          · exact hgerr b ρ e h1
          · exact ih _ e h2
      all_goals {
        simp only [bind_defs_go] at h
        exact ih ρ e h }

/-- Any error a compilation step produces has one of the four documented
shapes. -/
theorem compile_ast_err : ∀ (fuel : Nat) (a : Ast) (ρ : Env) (e : Err),
    compile_ast fuel a ρ = oerr e → err_shape e := by
  intro fuel
  induction fuel with
  | zero => intro a ρ e h; simp [compile_ast, oerr] at h
  | succ f ih =>
      intro a ρ e h
      cases a
      case literal s => simp [compile_ast, oret, oerr] at h
      case nothing => simp [compile_ast, oret, oerr] at h
      case macroRef n =>
        simp only [compile_ast] at h
        cases hl : List.lookup n ρ with
        | some v => rw [hl] at h; simp [oret, oerr] at h
        | none =>
            rw [hl] at h
            simp only [oerr, Option.some.injEq, Except.error.injEq] at h
            exact .inl ⟨_, h.symm⟩
      case defNode n b =>
        simp only [compile_ast] at h
        simp only [oerr, Option.some.injEq, Except.error.injEq] at h
        exact .inr (.inr (.inl h.symm))
      case range a b =>
        simp only [compile_ast] at h
        split at h
        · simp only [oerr, Option.some.injEq, Except.error.injEq] at h
          exact .inr (.inr (.inr ⟨a, h.symm⟩))
        · split at h
          · simp only [oerr, Option.some.injEq, Except.error.injEq] at h
            exact .inr (.inr (.inr ⟨b, h.symm⟩))
          · split at h
            · simp only [oerr, Option.some.injEq, Except.error.injEq] at h
              exact .inl ⟨_, h.symm⟩
            · split at h
              · simp only [oerr, Option.some.injEq, Except.error.injEq] at h
                exact .inl ⟨_, h.symm⟩
              · simp [oret, oerr] at h
      case operator name sub =>
        simp only [compile_ast] at h
        rcases obind_error h with h1 | ⟨p, _, h2⟩
        · exact ih sub ρ e h1
        · split at h2
          · simp [oret, oerr] at h2
          · split at h2
            · simp [oret, oerr] at h2
            · split at h2
              · rcases obind_error h2 with h3 | ⟨v, _, h4⟩
                · obtain ⟨msg, hmsg⟩ := invert_operator_err f p.1 e h3
                  exact .inl ⟨msg, hmsg⟩
                · simp [oret, oerr] at h4
              · simp only [oerr, Option.some.injEq, Except.error.injEq] at h2
                exact .inl ⟨_, h2.symm⟩
      case either items =>
        simp only [compile_ast] at h
        rcases obind_error h with h1 | ⟨p, _, h2⟩
        · exact thread_list_err ih items ρ e h1
        · split at h2 <;> simp [oret, oerr] at h2
      case concat items =>
        simp only [compile_ast] at h
        rcases obind_error h with h1 | ⟨ρ1, _, h2⟩
        · exact bind_defs_go_err ih items ρ e h1
        · rcases obind_error h2 with h3 | ⟨p, _, h4⟩
          · exact compile_items_go_err ih items ρ1 e h3
          · split at h4 <;> simp [oret, oerr] at h4

/-- C4 counterexample: redefining a macro in the same scope escapes as a
`KeyError`, not as the single `CompileError` kind the claim names. -/
theorem c4_counterexample :
    compile 3 (.concat [.defNode "#zz" (.literal "a"), .defNode "#zz" (.literal "b")]) =
      some (.error (.keyError "Macro #zz already defined")) := rfl

/-- C4 (amended): every error the compiler raises is the `CompileError` kind,
except that a macro redefinition in the same scope raises a `KeyError`
(message "Macro ... already defined"), a `Def` outside the direct item list of
a `Concat` raises a `ValueError` with the fixed placement message, and a
`Range` endpoint outside every character category trips the internal category
assertion. -/
theorem c4_error_kinds (fuel : Nat) (ast : Ast) (e : Err)
    (h : compile fuel ast = some (.error e)) : err_shape e := by
  unfold compile at h
  rcases obind_error h with h1 | ⟨p, _, h2⟩
  · exact compile_ast_err fuel ast builtin_macros e h1
  · simp [oret, oerr] at h2

theorem c4_witness : err_shape (.compileError "Operator qq does not exist") :=
  c4_error_kinds 2 (.operator "qq" (.literal "a")) _ rfl

/-- C5 counterexample: a `Range` whose start character lies outside every
character category fails with an `AssertionError`, not with the claimed
`CompileError`. -/
theorem c5_counterexample :
    compile 1 (.range '!' 'a') =
      some (.error (.assertionError "Unknown character class: !")) := rfl

/-- C5 (amended): for endpoints within the three known categories
(lowercase, uppercase, digit), a `Range` compiles to the non-inverted
single-range `CharacterClass` exactly when both endpoints share a category
and start strictly precedes end, and any other such combination fails with a
`CompileError`; an endpoint outside every category instead fails with the
internal category assertion rather than a `CompileError`. -/
theorem c5_range (fuel : Nat) (a b : Char) (ρ : Env) :
    (∀ ca cb, character_category a = some ca → character_category b = some cb →
      ((compile_ast (fuel+1) (.range a b) ρ =
          oret (.characterClass [.rng a b] false, ρ)) ↔ (ca = cb ∧ a < b)) ∧
      (¬(ca = cb ∧ a < b) →
        ∃ msg, compile_ast (fuel+1) (.range a b) ρ = oerr (.compileError msg))) ∧
    (∀ ca, character_category a = some ca → character_category b = none →
      compile_ast (fuel+1) (.range a b) ρ =
        oerr (.assertionError ("Unknown character class: " ++ String.singleton b))) ∧
    (character_category a = none →
      compile_ast (fuel+1) (.range a b) ρ =
        oerr (.assertionError ("Unknown character class: " ++ String.singleton a))) := by
  refine ⟨?_, ?_, ?_⟩
  · intro ca cb hca hcb
    have hunf : compile_ast (fuel+1) (.range a b) ρ =
        (if ca != cb then
          oerr (.compileError
            ("Range start and end not of the same category: \x27" ++ String.singleton a ++
             "\x27 is a " ++ ca ++ " but \x27" ++ String.singleton b ++ "\x27 is a " ++ cb))
        else if b ≤ a then
          oerr (.compileError
            ("Range start not before range end: \x27" ++ String.singleton a ++
             "\x27 >= \x27" ++ String.singleton b ++ "\x27"))
        else oret (.characterClass [.rng a b] false, ρ)) := by
      simp only [compile_ast]
      rw [hca, hcb]
    by_cases hcc : ca = cb
    · by_cases hab : a < b
      · have hba : ¬ b ≤ a := not_le.mpr hab
        rw [hunf, if_neg (by simp [hcc]), if_neg hba]
        exact ⟨⟨fun _ => ⟨hcc, hab⟩, fun _ => rfl⟩, fun hn => (hn ⟨hcc, hab⟩).elim⟩
      · have hba : b ≤ a := not_lt.mp hab
        rw [hunf, if_neg (by simp [hcc]), if_pos hba]
        constructor
        · constructor
          · intro heq; simp [oerr, oret] at heq
          · intro hn; exact absurd hn.2 hab
        · intro _; exact ⟨_, rfl⟩
    · rw [hunf, if_pos (by simp [hcc])]
      constructor
      · constructor
        · intro heq; simp [oerr, oret] at heq
        · intro hn; exact absurd hn.1 hcc
      · intro _; exact ⟨_, rfl⟩
  · intro ca hca hbnone
    simp only [compile_ast]
    rw [hca, hbnone]
  · intro hnone
    simp only [compile_ast]
    rw [hnone]

theorem c5_witness :
    compile_ast 1 (.range 'a' 'f') [] =
      oret (.characterClass [.rng 'a' 'f'] false, []) ∧
    compile_ast 1 (.range 'a' '!') [] =
      oerr (.assertionError "Unknown character class: !") :=
  ⟨((c5_range 0 'a' 'f' []).1 "LOWERCASE" "LOWERCASE" rfl rfl).1.mpr ⟨rfl, by decide⟩,
   (c5_range 0 'a' '!' []).2.1 "LOWERCASE" rfl rfl⟩

/-- C6: compiling a `Concat` compiles its non-`Def` items in original order,
filters out results that are semantically empty (the empty literal or the
empty concat), and returns the empty literal when no result survives, the
single survivor unwrapped when exactly one does, and a `Concat` of the
survivors in order otherwise. -/
theorem c6_concat_filtering (fuel : Nat) (items : List Ast) (ρ : Env) (r : Asm) (ρ' : Env)
    (h : compile_ast (fuel+1) (.concat items) ρ = oret (r, ρ')) :
    ∃ ρ1 compiled ρ2,
      bind_defs_go (compile_ast fuel) items ρ = oret ρ1 ∧
      compile_items_go (compile_ast fuel) items ρ1 = oret (compiled, ρ2) ∧
      (∀ x ∈ compiled.filter is_not_empty, is_not_empty x = true) ∧
      (compiled.filter is_not_empty = [] → r = EMPTY) ∧
      (∀ x, compiled.filter is_not_empty = [x] → r = x) ∧
      (2 ≤ (compiled.filter is_not_empty).length →
        r = .concat (compiled.filter is_not_empty)) := by
  rw [compile_ast_concat_unfold] at h
  obtain ⟨ρ1, hb, h2⟩ := obind_ok h
  obtain ⟨p, hi, h3⟩ := obind_ok h2
  refine ⟨ρ1, p.1, p.2, hb, hi, fun x hx => (List.mem_filter.mp hx).2, ?_, ?_, ?_⟩
  · intro hnil
    rw [hnil] at h3
    have h4 := oret_inj h3
    injection h4 with h5 _
    exact h5.symm
  · intro x hx
    rw [hx] at h3
    have h4 := oret_inj h3
    injection h4 with h5 _
    exact h5.symm
  · intro hlen
    cases hfl : p.1.filter is_not_empty with
    | nil => rw [hfl] at hlen; simp at hlen
    | cons y ys =>
        cases ys with
        | nil => rw [hfl] at hlen; simp at hlen
        | cons z zs =>
            rw [hfl] at h3
            have h4 := oret_inj h3
            injection h4 with h5 _
            exact h5.symm

theorem c6_witness :
    ∃ ρ1 compiled ρ2,
      bind_defs_go (compile_ast 1) [.literal "", .literal "a", .nothing] [] = oret ρ1 ∧
      compile_items_go (compile_ast 1) [.literal "", .literal "a", .nothing] ρ1 =
        oret (compiled, ρ2) ∧
      (∀ x ∈ compiled.filter is_not_empty, is_not_empty x = true) ∧
      (compiled.filter is_not_empty = [] → Asm.literal "a" = EMPTY) ∧
      (∀ x, compiled.filter is_not_empty = [x] → Asm.literal "a" = x) ∧
      (2 ≤ (compiled.filter is_not_empty).length →
        Asm.literal "a" = .concat (compiled.filter is_not_empty)) :=
  c6_concat_filtering 1 [.literal "", .literal "a", .nothing] [] (.literal "a") [] rfl

/-- C7: every successful top-level compilation returns a `Setting` node whose
flag string is exactly "ms" (multiline anchors and dot-matches-newline),
wrapping the IR compiled from the AST body against the builtin table. -/
theorem c7_top_level_setting (fuel : Nat) (ast : Ast) (r : Asm)
    (h : compile fuel ast = some (.ok r)) :
    ∃ body ρ', compile_ast fuel ast builtin_macros = oret (body, ρ') ∧
      r = .setting "ms" body := by
  unfold compile at h
  rcases obind_ok h with ⟨p, hp, h2⟩
  have h3 := oret_inj h2
  exact ⟨p.1, p.2, hp, h3.symm⟩

theorem c7_witness :
    ∃ body ρ', compile_ast 2 (.literal "a") builtin_macros = oret (body, ρ') ∧
      Asm.setting "ms" (.literal "a") = .setting "ms" body :=
  c7_top_level_setting 2 (.literal "a") (.setting "ms" (.literal "a")) rfl

/-- C8: the `not` operator inverts a one-character literal to a one-character
inverted `CharacterClass`; any other IR value supplies its own inversion (a
class flips its `inverted` flag, an anchor with a precomputed inverse swaps
it); a value defining no inversion fails with a `CompileError` whose message
names the re-rendered offending expression. -/
theorem c8_invert_rule (fuel : Nat) :
    (∀ c : Char, invert_operator fuel (.literal (String.singleton c)) =
      oret (.characterClass [.str (String.singleton c)] true)) ∧
    (∀ cs inv, invert_operator fuel (.characterClass cs inv) =
      oret (.characterClass cs (!inv))) ∧
    (∀ t i, invert_operator fuel (.boundary t (some i)) = oret (.boundary i (some t))) ∧
    (∀ expr, Asm.invert expr = none → (∀ s, expr = .literal s → s.length ≠ 1) →
      ∀ rendered, assemble_fuel fuel expr = some rendered →
        invert_operator fuel expr =
          oerr (.compileError ("Expression " ++ rendered ++ " cannot be inverted"))) := by
  refine ⟨fun c => rfl, fun cs inv => rfl, fun t i => rfl, ?_⟩
  intro expr hinv hlit rendered hrender
  have hfb : invert_fallback fuel expr =
      oerr (.compileError ("Expression " ++ rendered ++ " cannot be inverted")) := by
    unfold invert_fallback
    rw [hinv, hrender]
  cases expr
  case literal s =>
    have hne : s.length ≠ 1 := hlit s rfl
    simp only [invert_operator]
    rw [if_neg (by simpa using hne)]
    exact hfb
  all_goals exact hfb

theorem c8_witness :
    invert_operator 3 (.literal "a") = oret (.characterClass [.str "a"] true) ∧
    invert_operator 3 (.concat [.literal "a", .literal "b"]) =
      oerr (.compileError "Expression ab cannot be inverted") :=
  ⟨(c8_invert_rule 3).1 'a',
   (c8_invert_rule 3).2.2.2 (.concat [.literal "a", .literal "b"]) rfl
     (fun _ h => nomatch h) "ab" rfl⟩

theorem collect_class_chars_mem (cs : List ClassItem) (b : Bool) :
    ∀ (compiled : List Asm), Asm.characterClass cs b ∈ compiled →
      ∀ x ∈ cs, x ∈ collect_class_chars compiled := by
  intro compiled
  induction compiled with
  | nil => intro h; cases h
  | cons a rest ih =>
      intro hmem x hx
      rcases List.mem_cons.mp hmem with heq | hmem2
      · rw [← heq]
        simp only [collect_class_chars]
        exact List.mem_append.mpr (.inl hx)
      · have hx2 := ih hmem2 x hx
        cases a
        case literal s =>
          by_cases hs : (s.length == 1) = true
          · simp only [collect_class_chars, if_pos hs]
            exact List.mem_cons_of_mem _ hx2
          · simpa only [collect_class_chars, if_neg hs] using hx2
        case characterClass cs2 b2 =>
          simp only [collect_class_chars]
          exact List.mem_append.mpr (.inr hx2)
        all_goals simpa only [collect_class_chars] using hx2

/-- C9: when every branch of an `Either` compiles to a single character and at
least one branch compiled to an inverted `CharacterClass`, the folding step
still returns a single non-inverted class: the inverted branch's character
list is absorbed into the union and its `inverted` flag is silently
discarded. -/
theorem c9_inverted_branch_absorbed (fuel : Nat) (items : List Ast) (ρ ρ' : Env)
    (compiled : List Asm) (cs : List ClassItem)
    (hth : thread_list (compile_ast fuel) items ρ = oret (compiled, ρ'))
    (hall : compiled.all is_single_char = true)
    (hinv : Asm.characterClass cs true ∈ compiled) :
    compile_ast (fuel+1) (.either items) ρ =
      oret (.characterClass (collect_class_chars compiled) false, ρ') ∧
    ∀ x ∈ cs, x ∈ collect_class_chars compiled := by
  constructor
  · rw [compile_ast_either_unfold, hth, obind_oret]
    simp [hall]
  · exact collect_class_chars_mem cs true compiled hinv

theorem c9_witness :
    compile_ast 3 (.either [.operator "not" (.literal "a"), .literal "b"]) [] =
      oret (.characterClass [.str "a", .str "b"] false, []) ∧
    ∀ x ∈ [ClassItem.str "a"],
      x ∈ collect_class_chars [.characterClass [.str "a"] true, .literal "b"] :=
  c9_inverted_branch_absorbed 2 [.operator "not" (.literal "a"), .literal "b"]
    [] [] [.characterClass [.str "a"] true, .literal "b"] [.str "a"]
    rfl rfl (List.mem_cons_self _ _)

/-- Whether an AST node is a `Def`. -/
def is_def_node : Ast → Bool
  | .defNode _ _ => true
  | _ => false

theorem bind_defs_go_skip {g : Ast → Env → M (Asm × Env)} :
    ∀ (l l2 : List Ast) (ρ : Env), (∀ a ∈ l, is_def_node a = false) →
      bind_defs_go g (l ++ l2) ρ = bind_defs_go g l2 ρ := by
  intro l
  induction l with
  | nil => intro l2 ρ _; rfl
  | cons a rest ih =>
      intro l2 ρ hnd
      have ha := hnd a (List.mem_cons_self _ _)
      cases a
      case defNode n b => simp [is_def_node] at ha
      all_goals {
        rw [List.cons_append]
        simp only [bind_defs_go]
        exact ih l2 ρ (fun a h => hnd a (List.mem_cons_of_mem _ h)) }

theorem erase_defs_append_no_defs :
    ∀ (l1 l2 : List Ast) (σ : Env), (∀ a ∈ l1, is_def_node a = false) →
      erase_defs (l1 ++ l2) σ = erase_defs l2 σ := by
  intro l1
  induction l1 with
  | nil => intro l2 σ _; rfl
  | cons a rest ih =>
      intro l2 σ hnd
      have ha := hnd a (List.mem_cons_self _ _)
      cases a
      case defNode n b => simp [is_def_node] at ha
      all_goals {
        rw [List.cons_append]
        simp only [erase_defs]
        exact ih l2 σ (fun a h => hnd a (List.mem_cons_of_mem _ h)) }

theorem compile_items_go_all_ok {g : Ast → Env → M (Asm × Env)} :
    ∀ (l : List Ast) (ρ : Env),
      (∀ a ∈ l, is_def_node a = true ∨ ∃ w, g a ρ = oret (w, ρ)) →
      ∃ ws, compile_items_go g l ρ = oret (ws, ρ) := by
  intro l
  induction l with
  | nil => intro ρ _; exact ⟨[], rfl⟩
  | cons a rest ih =>
      intro ρ hall
      cases a
      case defNode n b =>
        simp only [compile_items_go]
        exact ih ρ (fun a h => hall a (List.mem_cons_of_mem _ h))
      all_goals {
        rcases hall _ (List.mem_cons_self _ _) with hdef | ⟨w, hw⟩
        · simp [is_def_node] at hdef
        · obtain ⟨ws, hws⟩ := ih ρ (fun a h => hall a (List.mem_cons_of_mem _ h))
          simp only [compile_items_go, hw, obind_oret, hws]
          exact ⟨w :: ws, rfl⟩ }

/-- C10: inside a single `Concat`, every `Def` is compiled and bound before
any non-`Def` item is compiled, each `Def` body under the environment already
extended by earlier `Def`s of the same `Concat`; hence a `Macro` reference
that textually precedes its `Def` in the same `Concat` still resolves and the
whole `Concat` compiles. -/
theorem c10_defs_bound_first (fuel : Nat) (before after : List Ast) (x : String)
    (body : Ast) (ρ : Env) (v : Asm)
    (hnd : ∀ a ∈ before ++ after, is_def_node a = false)
    (hx : List.lookup x ρ = none)
    (hbody : compile_ast fuel body ρ = oret (v, ρ))
    (hitems : ∀ a ∈ before ++ after,
      ∃ w, compile_ast fuel a ((x, v) :: ρ) = oret (w, (x, v) :: ρ)) :
    bind_defs_go (compile_ast fuel)
        (before ++ (.macroRef x :: after) ++ [.defNode x body]) ρ = oret ((x, v) :: ρ) ∧
    (∀ y, List.lookup y ρ = none → y ≠ x →
      bind_defs_go (compile_ast fuel) [.defNode x body, .defNode y (.macroRef x)] ρ =
        oret ((y, v) :: (x, v) :: ρ)) ∧
    ∃ r, compile_ast (fuel + 1)
        (.concat (before ++ (.macroRef x :: after) ++ [.defNode x body])) ρ =
      oret (r, ρ) := by
  cases fuel with
  | zero => simp [compile_ast, oret] at hbody
  | succ f =>
      have hl1 : ∀ a ∈ before ++ (.macroRef x :: after), is_def_node a = false := by
        intro a ha
        rcases List.mem_append.mp ha with h1 | h2
        · exact hnd a (List.mem_append.mpr (.inl h1))
        · rcases List.mem_cons.mp h2 with h3 | h4
          · rw [h3]; rfl
          · exact hnd a (List.mem_append.mpr (.inr h4))
      have hmac : compile_ast (f + 1) (.macroRef x) ((x, v) :: ρ) =
          oret (v, (x, v) :: ρ) := by
        simp only [compile_ast]
        rw [List.lookup_cons]
        simp
      have hbindA : bind_defs_go (compile_ast (f + 1))
          (before ++ (.macroRef x :: after) ++ [.defNode x body]) ρ = oret ((x, v) :: ρ) := by
        rw [bind_defs_go_skip (before ++ (.macroRef x :: after)) [.defNode x body] ρ hl1]
        simp only [bind_defs_go]
        rw [if_neg (by simp [hx])]
        simp only [hbody, obind_oret]
      refine ⟨hbindA, ?_, ?_⟩
      · intro y hy hyx
        have hyx2 : (y == x) = false := beq_eq_false_iff_ne.mpr hyx
        simp only [bind_defs_go]
        rw [if_neg (by simp [hx])]
        simp only [hbody, obind_oret]
        rw [if_neg (by
          rw [List.lookup_cons]
          simp [hyx2, hy])]
        simp only [hmac, obind_oret]
      · have hok : ∀ a ∈ before ++ (.macroRef x :: after) ++ [.defNode x body],
            is_def_node a = true ∨
            ∃ w, compile_ast (f + 1) a ((x, v) :: ρ) = oret (w, (x, v) :: ρ) := by
          intro a ha
          rcases List.mem_append.mp ha with h1 | h2
          · rcases List.mem_append.mp h1 with h3 | h4
            · exact .inr (hitems a (List.mem_append.mpr (.inl h3)))
            · rcases List.mem_cons.mp h4 with h5 | h6
              · rw [h5]; exact .inr ⟨v, hmac⟩
              · exact .inr (hitems a (List.mem_append.mpr (.inr h6)))
          · rcases List.mem_cons.mp h2 with h3 | h4
            · rw [h3]; exact .inl rfl
            · cases h4
        obtain ⟨ws, hws⟩ := compile_items_go_all_ok _ ((x, v) :: ρ) hok
        rw [compile_ast_concat_unfold]
        simp only [hbindA, obind_oret, hws]
        have hE : erase_defs (before ++ (.macroRef x :: after) ++ [.defNode x body])
            ((x, v) :: ρ) = ρ := by
          rw [erase_defs_append_no_defs (before ++ (.macroRef x :: after))
            [.defNode x body] _ hl1]
          simp only [erase_defs]
          rw [erase_key_cons]
          simp
        rw [hE]
        rcases hfl : ws.filter is_not_empty with _ | ⟨y, _ | ⟨z, zs⟩⟩ <;>
          exact ⟨_, rfl⟩

theorem c10_witness :
    ∃ r, compile_ast 3 (.concat [.macroRef "#e", .defNode "#e" (.literal "z")]) [] =
      oret (r, []) :=
  (c10_defs_bound_first 2 [] [] "#e" (.literal "z") [] (.literal "z")
    (fun _ h => nomatch h) rfl rfl (fun _ h => nomatch h)).2.2

end Kleenexp
